import Mathlib

/-!
Verification development for the Oracle HCM conversational-agent repository.

The Python sources are shallowly embedded as executable Lean definitions:

* `app/llm/schemas.py`   : the `Json` value type, `APICall`, `Plan`,
  `ExecutionResult`, and the static endpoint catalog `HCM_API_ENDPOINTS`.
* `app/llm/planner.py`   : `forceVersionStr` (the `re.sub` of
  `_force_version`), `matchCatalogEntry` (`_match_catalog_entry`) and
  `constrainCall` / `constrainPlanToCatalog` (`_constrain_plan_to_catalog`).
* `app/tools/hcm_tool.py`: `executeCalls` (`OracleHCMCallTool.execute_calls`)
  with the per-call transport abstracted as an `Except`-valued oracle.
* `app/oracle/hcm_client.py`: `request_json` and `get_paginated`.
* `app/server/main.py`   : `chatEndpoint` (the `/chat` handler's query guard).

Python `str` values are modelled as Lean `String` (a wrapper of `List Char`),
Python dicts as insertion-ordered association lists, and raised exceptions as
the `Except.error` branch.  All definitions are computable so that concrete
witnesses evaluate by `decide` / `rfl`.
-/

/-- JSON-like values (Python `Any` in `Dict[str, Any]` positions). -/
inductive Json where
  | null : Json
  | bool (b : Bool) : Json
  | num (n : Int) : Json
  | str (s : String) : Json
  | arr (elems : List Json) : Json
  | obj (fields : List (String × Json)) : Json
deriving Repr

/-- `app/llm/schemas.py` `APICall`: one planned HTTP request.
`params` is a Python dict (insertion-ordered association list), `body` the
optional JSON payload. -/
structure APICall where
  description : String
  method : String
  path : String
  params : List (String × Json)
  body : Option Json
deriving Repr

/-- `app/llm/schemas.py` `Plan`: planner output. -/
structure Plan where
  intent : String
  api_calls : List APICall
deriving Repr

/-- `app/llm/schemas.py` `ExecutionResult`: outcome of one `APICall`. -/
structure ExecutionResult where
  call : APICall
  response : Json
  error : Option String
deriving Repr

/-- One entry of the static endpoint catalog (`HCM_API_ENDPOINTS` values). -/
structure CatalogEntry where
  method : String
  path : String
  description : String
  queryParams : List String
  responseFields : List String
deriving Repr, DecidableEq

/-- `HCM_API_DEFAULT_VERSION` from `app/llm/schemas.py`. -/
def HCM_API_DEFAULT_VERSION : String := "11.13.18.05"

/-- The `listUserAccounts` catalog entry. -/
def listUserAccountsEntry : CatalogEntry :=
  { method := "GET"
    path := "/hcmRestApi/resources/{version}/userAccounts"
    description := "List user accounts."
    queryParams := []
    responseFields := ["UserId", "Username", "SuspendedFlag", "PersonId",
      "PersonNumber", "GUID", "CreationDate", "LastUpdateDate"] }

/-- The `getUserAccountByGUID` catalog entry. -/
def getUserAccountByGUIDEntry : CatalogEntry :=
  { method := "GET"
    path := "/hcmRestApi/resources/{version}/userAccounts/{GUID}"
    description := "Get a user account by GUID."
    queryParams := []
    responseFields := ["UserId", "Username", "SuspendedFlag", "PersonId",
      "PersonNumber", "GUID", "CreationDate", "LastUpdateDate"] }

/-- `HCM_API_ENDPOINTS` from `app/llm/schemas.py`: resource group →
operation name → entry, in Python dict insertion order. -/
def HCM_API_ENDPOINTS : List (String × List (String × CatalogEntry)) :=
  [("Users",
    [("listUserAccounts", listUserAccountsEntry),
     ("getUserAccountByGUID", getUserAccountByGUIDEntry)])]

/-- Strip a literal from the front of a character list
(`some rest` iff the list is `pre ++ rest`). -/
def stripLit : List Char → List Char → List Char → Option (List Char)
  | [], s, _ => some s
  | _ :: _, [], _ => none
  | p :: ps, c :: cs, dflt => if c = p then stripLit ps cs dflt else none

/-- Variant of `stripLit` with the standard signature. -/
def dropLit (pre s : List Char) : Option (List Char) := stripLit pre s []

/-- Consume characters up to and including the first `'/'`
(the tail of the regex fragment `[^/]*/`). -/
def consumeSeg : List Char → Option (List Char)
  | [] => none
  | c :: cs => if c = '/' then some cs else consumeSeg cs

/-- Match the regex fragment `[^/]+/` at the head: at least one non-slash
character followed by a `'/'`; returns what follows the slash. -/
def segSlash : List Char → Option (List Char)
  | [] => none
  | c :: cs => if c = '/' then none else consumeSeg cs

/-- The literal part of the `_force_version` pattern `/resources/[^/]+/`. -/
def litResources : List Char := "/resources/".data

/-- The replacement text `f"/resources/{HCM_API_DEFAULT_VERSION}/"`. -/
def replResources : List Char := ("/resources/" ++ HCM_API_DEFAULT_VERSION ++ "/").data

/-- Match the whole regex `/resources/[^/]+/` at the head of the list,
returning the remainder after the match. -/
def splitMatch (s : List Char) : Option (List Char) :=
  match dropLit litResources s with
  | some rest => segSlash rest
  | none => none

/-- Fuel-indexed left-to-right global substitution of the regex
`/resources/[^/]+/` by `replResources` (Python `re.sub` semantics: leftmost
match first, scanning resumes after the replaced text). -/
def subAllF : Nat → List Char → List Char
  | 0, s => s
  | _ + 1, [] => []
  | fuel + 1, c :: cs =>
    match splitMatch (c :: cs) with
    | some rest => replResources ++ subAllF fuel rest
    | none => c :: subAllF fuel cs

/-- `re.sub(r"/resources/[^/]+/", f"/resources/{V}/", s)` on character lists. -/
def subAll (s : List Char) : List Char := subAllF s.length s

/-- `_force_version` from `app/llm/planner.py`. -/
def forceVersionStr (s : String) : String := ⟨subAll s.data⟩

/-- Fuel-indexed Python `str.replace(old, new)` (all occurrences,
left to right, non-overlapping; `old` is nonempty in every use here). -/
def replaceAllF (old new : List Char) : Nat → List Char → List Char
  | 0, s => s
  | _ + 1, [] => []
  | fuel + 1, c :: cs =>
    match dropLit old (c :: cs) with
    | some rest => new ++ replaceAllF old new fuel rest
    | none => c :: replaceAllF old new fuel cs

/-- Python `s.replace(old, new)`. -/
def strReplace (s old new : String) : String :=
  ⟨replaceAllF old.data new.data s.data.length s.data⟩

/-- Python `template.split("{")[0]`: the part before the first brace. -/
def templStem (t : String) : String := ⟨t.data.takeWhile (fun c => c ≠ '\x7b')⟩

/-- Python `s.startswith(pre)`. -/
def pyStartswith (s pre : String) : Bool := (dropLit pre.data s.data).isSome

/-- Scan one group of catalog entries in order; first match wins
(the inner loop of `_match_catalog_entry`). -/
def matchInGroup (normalized : String) (group : String) :
    List (String × CatalogEntry) → Option (String × String × CatalogEntry)
  | [] => none
  | (key, entry) :: rest =>
    let templNorm := strReplace entry.path "{version}" HCM_API_DEFAULT_VERSION
    if pyStartswith normalized (templStem templNorm) then some (group, key, entry)
    else matchInGroup normalized group rest

/-- Scan the catalog groups in order (the outer loop of
`_match_catalog_entry`). -/
def matchGroups (normalized : String) :
    List (String × List (String × CatalogEntry)) → Option (String × String × CatalogEntry)
  | [] => none
  | (g, entries) :: rest =>
    match matchInGroup normalized g entries with
    | some x => some x
    | none => matchGroups normalized rest

/-- `_match_catalog_entry` from `app/llm/planner.py`: normalize a literal
`latest` version, then return the first catalog endpoint whose path template
prefix (up to the first placeholder) starts the path. -/
def matchCatalogEntry (path : String) : Option (String × String × CatalogEntry) :=
  let normalized := strReplace path "/resources/latest/"
      ("/resources/" ++ HCM_API_DEFAULT_VERSION ++ "/")
  matchGroups normalized HCM_API_ENDPOINTS

/-- Python `s.upper()` (ASCII part), used for the method comparison. -/
def pyUpper (s : String) : String := ⟨s.data.map Char.toUpper⟩

/-- The dict comprehension `{k: v for k, v in params.items() if k in allowed}`. -/
def filterParams (allowed : List String) (params : List (String × Json)) :
    List (String × Json) :=
  params.filter (fun kv => allowed.contains kv.1)

/-- The per-call body of the loop in `_constrain_plan_to_catalog`
(`app/llm/planner.py` lines 105-123): force the version in the path, clear
the params of an unmatched call (leaving everything else untouched, note the
`continue`), restrict params of a matched call to the entry's allow-list, and
clear the body of a matched GET call. -/
def constrainCall (c : APICall) : APICall :=
  let path := forceVersionStr c.path
  match matchCatalogEntry path with
  | none => { c with path := path, params := [] }
  | some (_g, _k, entry) =>
    let params := if entry.queryParams.isEmpty then []
                  else filterParams entry.queryParams c.params
    let body := if pyUpper c.method = "GET" then none else c.body
    { c with path := path, params := params, body := body }

/-- `_constrain_plan_to_catalog` from `app/llm/planner.py`. -/
def constrainPlanToCatalog (p : Plan) : Plan :=
  { p with api_calls := p.api_calls.map constrainCall }

/-- `OracleHCMCallTool.execute_calls` from `app/tools/hcm_tool.py`.  The
per-call transport (paginated GET or single JSON request, together with any
exception it raises) is abstracted as `oracle`; `Except.error e` stands for a
raised exception with message `e`.  The function is total: the batch always
completes and the executor itself never raises. -/
def executeCalls (oracle : APICall → Except String Json) :
    List APICall → List ExecutionResult
  | [] => []
  | c :: rest =>
    (match oracle c with
     | Except.ok data => { call := c, response := data, error := none }
     | Except.error e => { call := c, response := Json.obj [], error := some e })
    :: executeCalls oracle rest

/-- Python substring test `needle in hay`. -/
def pySubstr (needle : List Char) : List Char → Bool
  | [] => needle.isEmpty
  | c :: cs => (dropLit needle (c :: cs)).isSome || pySubstr needle cs

/-- `path if path.startswith("/") else f"/{path}"`. -/
def ensureLeadingSlash (path : String) : String :=
  if pyStartswith path "/" then path else "/" ++ path

/-- `OracleHCMClient.build_url` from `app/oracle/hcm_client.py`. -/
def buildUrl (baseUrl path : String) : String :=
  baseUrl ++ ensureLeadingSlash path

/-- One delivered HTTP response, as observed by `request_json` after the
transport call succeeded. -/
structure HTTPResponse where
  status : Nat
  contentType : String
  jsonBody : Json
  text : String

/-- `OracleHCMClient.request_json` (`app/oracle/hcm_client.py` lines 65-96)
for a delivered response: a status of 400 or more raises a `RuntimeError`
carrying the status code and the response text; otherwise the JSON body (for
a JSON content type) or a `{"status", "content"}` wrapper is returned.
`Except.error` models the raised exception. -/
def request_json (base method path : String) (resp : HTTPResponse) :
    Except String Json :=
  let methodUpper := pyUpper method
  let urlPath := ensureLeadingSlash path
  if 400 ≤ resp.status then
    Except.error ("HCM API error " ++ toString resp.status ++ " for " ++
      methodUpper ++ " " ++ buildUrl base urlPath ++ ": " ++ resp.text)
  else if pySubstr "application/json".data resp.contentType.data then
    Except.ok resp.jsonBody
  else
    Except.ok (Json.obj [("status", Json.num resp.status), ("content", Json.str resp.text)])

/-- Python `k in d` for a dict modelled as an association list. -/
def dictContainsKey (d : List (String × Json)) (k : String) : Bool :=
  d.any (fun kv => kv.1 == k)

/-- Python `d.setdefault(k, v)`: insert at the end only when absent. -/
def dictSetdefault (d : List (String × Json)) (k : String) (v : Json) :
    List (String × Json) :=
  if dictContainsKey d k then d else d ++ [(k, v)]

/-- Python `d[k] = v`: update in place when present, else append. -/
def dictSet (d : List (String × Json)) (k : String) (v : Json) :
    List (String × Json) :=
  if dictContainsKey d k then d.map (fun kv => if kv.1 == k then (k, v) else kv)
  else d ++ [(k, v)]

/-- Python `d[k]` / `d.get(k)` (first binding wins; real dicts have no
duplicate keys). -/
def dictGet (d : List (String × Json)) (k : String) : Option Json :=
  match d.find? (fun kv => kv.1 == k) with
  | some kv => some kv.2
  | none => none

/-- `isinstance(data, dict) and "items" in data and isinstance(data["items"], list)`:
the list of items of a page, when the page has a list-valued `items` field. -/
def getItems : Json → Option (List Json)
  | Json.obj fields =>
    match dictGet fields "items" with
    | some (Json.arr l) => some (l)
    | _ => none
  | _ => none

/-- The query parameters `get_paginated` sends for page `pageIndex`:
`page_params = dict(base); page_params.setdefault("limit", page_size);
page_params["offset"] = page_index * page_size`. -/
def pageParamsFor (base : List (String × Json)) (pageSize pageIndex : Nat) :
    List (String × Json) :=
  dictSet (dictSetdefault base "limit" (Json.num (Int.ofNat pageSize)))
    "offset" (Json.num (Int.ofNat (pageIndex * pageSize)))

/-- The `for page_index in range(max_pages)` loop of
`OracleHCMClient.get_paginated`: returns the accumulated `all_items` and
`pages` lists.  `budget` is the number of loop iterations still allowed and
`pageIndex` the current page index. -/
def getPagAux (fetch : List (String × Json) → Json) (base : List (String × Json))
    (pageSize : Nat) : Nat → Nat → List Json × List Json
  | 0, _ => ([], [])
  | budget + 1, pageIndex =>
    match getItems (fetch (pageParamsFor base pageSize pageIndex)) with
    | some items =>
      if items.length < pageSize then (items, [fetch (pageParamsFor base pageSize pageIndex)])
      else
        (items ++ (getPagAux fetch base pageSize budget (pageIndex + 1)).1,
         fetch (pageParamsFor base pageSize pageIndex)
           :: (getPagAux fetch base pageSize budget (pageIndex + 1)).2)
    | none => ([], [fetch (pageParamsFor base pageSize pageIndex)])

/-- `OracleHCMClient.get_paginated` (`app/oracle/hcm_client.py` lines 98-134)
with the transport abstracted as `fetch` (the result of the per-page GET).
Defaults mirror `page_size: int = 100, max_pages: int = 10`. -/
def get_paginated (fetch : List (String × Json) → Json)
    (params : List (String × Json)) (pageSize : Nat := 100) (maxPages : Nat := 10) :
    Json :=
  let r := getPagAux fetch params pageSize maxPages 0
  if r.1.isEmpty then Json.obj [("pages", Json.arr r.2)]
  else Json.obj [("items", Json.arr r.1), ("pages", Json.arr r.2)]

/-- Field lookup on a JSON object (`none` for non-objects). -/
def jsonField (k : String) : Json → Option Json
  | Json.obj fields => dictGet fields k
  | _ => none

/-- Python `str.strip()` whitespace set (ASCII part). -/
def isPySpace (c : Char) : Bool :=
  c = ' ' || c = '\t' || c = '\n' || c = '\r' || c = '\x0b' || c = '\x0c'

/-- Python `s.strip()`. -/
def pyStrip (s : String) : String :=
  ⟨((s.data.dropWhile isPySpace).reverse.dropWhile isPySpace).reverse⟩

/-- The `/chat` handler of `app/server/main.py` (lines 158-165):
`query = (body.get("query") or "").strip(); if not query: raise
HTTPException(400, "query is required")`, then the rest of the pipeline runs
on the non-empty query.  The entire downstream pipeline (Planner, Executor,
Responder) is abstracted as `runPipeline`; `Except.error` is the raised
`HTTPException` as `(status_code, detail)`. -/
def chatEndpoint {R : Type} (runPipeline : String → R) (queryField : Option String) :
    Except (Nat × String) R :=
  let query := pyStrip (queryField.getD "")
  if query = "" then Except.error (400, "query is required")
  else Except.ok (runPipeline query)

/-- Does the `_force_version` regex `/resources/[^/]+/` match anywhere in the
list? -/
def hasMatchB : List Char → Bool
  | [] => false
  | c :: cs => (splitMatch (c :: cs)).isSome || hasMatchB cs

/-- The end-to-end scenario call: a planner proposal for `listUserAccounts`
carrying an invented `filter` query parameter and a `latest` version. -/
def w1call : APICall :=
  { description := "List user accounts filtered by GUID"
    method := "GET"
    path := "/hcmRestApi/resources/latest/userAccounts"
    params := [("filter", Json.str "GUID eq ABC-123")]
    body := none }

/-- A one-call plan around `w1call`. -/
def w1plan : Plan := { intent := "list all workers with GUID ABC-123", api_calls := [w1call] }

/-- A proposed call whose path ends in the bare version sentinel `latest`
with nothing after it. -/
def c2cexCall : APICall :=
  { description := "probe", method := "GET", path := "/hcmRestApi/resources/latest",
    params := [], body := none }

/-- A one-call plan around `c2cexCall`. -/
def c2cexPlan : Plan := { intent := "probe", api_calls := [c2cexCall] }

/-- A planner proposal using the `latest` sentinel in the normal interior
position. -/
def w2call : APICall :=
  { description := "list accounts", method := "GET",
    path := "/hcmRestApi/resources/latest/userAccounts", params := [], body := none }

/-- A one-call plan around `w2call`. -/
def w2plan : Plan := { intent := "list accounts", api_calls := [w2call] }

/-- A GET call with a body whose path matches no catalog entry. -/
def c3cex : APICall :=
  { description := "fetch foo", method := "GET", path := "/foo", params := [],
    body := some (Json.obj [("a", Json.num 1)]) }

/-- A matched GET call (the `userAccounts` collection) carrying a body. -/
def w3call : APICall :=
  { description := "list accounts", method := "get",
    path := "/hcmRestApi/resources/11.13.18.05/userAccounts",
    params := [], body := some (Json.obj [("a", Json.num 1)]) }

/-- A one-call plan around `w3call`. -/
def w3plan : Plan := { intent := "list accounts", api_calls := [w3call] }

/-- An unmatched non-GET call with params, a body and a wrong path version. -/
def w4call : APICall :=
  { description := "post foo", method := "POST", path := "/foo/resources/old/x",
    params := [("a", Json.str "b")], body := some (Json.str "payload") }

/-- A one-call plan around `w4call`. -/
def w4plan : Plan := { intent := "demo", api_calls := [w4call] }

/-- A transport oracle that fails exactly on the path `/fail`. -/
def w5oracle : APICall → Except String Json :=
  fun c => if c.path = "/fail" then Except.error "boom"
           else Except.ok (Json.obj [("ok", Json.bool true)])

/-- A three-call batch whose middle call fails under `w5oracle`. -/
def w5calls : List APICall :=
  [{ description := "first", method := "GET", path := "/a", params := [], body := none },
   { description := "second", method := "GET", path := "/fail", params := [], body := none },
   { description := "third", method := "POST", path := "/c", params := [], body := none }]

/-- A delivered 302 response (non-2xx but below 400). -/
def resp302 : HTTPResponse :=
  { status := 302, contentType := "application/json", jsonBody := Json.obj [],
    text := "Found elsewhere" }

/-- A delivered 404 response. -/
def resp404 : HTTPResponse :=
  { status := 404, contentType := "text/html", jsonBody := Json.null, text := "Not Found" }

/-- Mock endpoint for the pagination scenario: 237 items served in pages of
up to 100, keyed by the `offset` request parameter.  Offsets at or past 300
(a fourth page and beyond) answer a full poison page of 100 items, so the
237-item / 3-page totals below certify that no fourth request is issued. -/
def mock237 (params : List (String × Json)) : Json :=
  match dictGet params "offset" with
  | some (Json.num o) =>
    if o.toNat < 237 then
      Json.obj [("items", Json.arr ((List.range (min 100 (237 - o.toNat))).map
        (fun j => Json.num (Int.ofNat (o.toNat + j)))))]
    else
      Json.obj [("items", Json.arr ((List.range 100).map (fun j => Json.num (Int.ofNat j))))]
  | _ => Json.obj []

/-- Mock endpoint whose single page carries an `items` field that is an
empty list. -/
def fetchEmptyItems : List (String × Json) → Json :=
  fun _ => Json.obj [("items", Json.arr [])]

/-- Mock endpoint whose response has no `items` field at all
(`{"status": 200, "content": "..."}`). -/
def fetchNoItems : List (String × Json) → Json :=
  fun _ => Json.obj [("status", Json.num 200), ("content", Json.str "not json")]

/-- `executeCalls` produces one result per call. -/
theorem executeCalls_length (oracle : APICall → Except String Json)
    (calls : List APICall) : (executeCalls oracle calls).length = calls.length := by
  induction calls with
  | nil => rfl
  | cons c rest ih => simp [executeCalls, ih]

/-- The i-th result of `executeCalls` depends only on the i-th call and on
the oracle's verdict for it. -/
theorem executeCalls_get (oracle : APICall → Except String Json) :
    ∀ (calls : List APICall) (i : Nat) (hi : i < calls.length)
      (hr : i < (executeCalls oracle calls).length),
      (executeCalls oracle calls).get ⟨i, hr⟩ =
        (match oracle (calls.get ⟨i, hi⟩) with
         | Except.ok data => { call := calls.get ⟨i, hi⟩, response := data, error := none }
         | Except.error e =>
           { call := calls.get ⟨i, hi⟩, response := Json.obj [], error := some e })
  | [], i, hi, _ => absurd hi (by simp)
  | c :: rest, 0, _, _ => rfl
  | c :: rest, i + 1, hi, hr =>
    executeCalls_get oracle rest i (by simpa using hi)
      (by simpa [executeCalls] using hr)

/-- C5: for every ordered sequence of N calls given to the Executor, it
returns exactly N `ExecutionResult`s in the same order, each result's `call`
equals the input call at that index, a failure on a call affects only that
index (its `error` is the oracle's message and its `response` the empty
mapping) while a success yields `error = none` and the oracle's data; the
Executor is a total function, so it never raises. -/
theorem claim_C5 (oracle : APICall → Except String Json) (calls : List APICall) :
    (executeCalls oracle calls).length = calls.length ∧
    (∀ (i : Nat) (hi : i < calls.length) (hr : i < (executeCalls oracle calls).length),
      ((executeCalls oracle calls).get ⟨i, hr⟩).call = calls.get ⟨i, hi⟩ ∧
      (∀ data, oracle (calls.get ⟨i, hi⟩) = Except.ok data →
        ((executeCalls oracle calls).get ⟨i, hr⟩).error = none ∧
        ((executeCalls oracle calls).get ⟨i, hr⟩).response = data) ∧
      (∀ e, oracle (calls.get ⟨i, hi⟩) = Except.error e →
        ((executeCalls oracle calls).get ⟨i, hr⟩).error = some e ∧
        ((executeCalls oracle calls).get ⟨i, hr⟩).response = Json.obj [])) := by
  refine ⟨executeCalls_length oracle calls, ?_⟩
  intro i hi hr
  rw [executeCalls_get oracle calls i hi hr]
  cases h : oracle (calls.get ⟨i, hi⟩) with
  | ok data => exact ⟨rfl, fun d hd => by simp_all, fun e he => by simp_all⟩
  | error e => exact ⟨rfl, fun d hd => by simp_all, fun e' he' => by simp_all⟩

/-- Witness for C5 at a concrete three-call batch whose middle call fails:
three results come back, order is preserved, only index 1 carries an error
(with empty response), and indices 0 and 2 succeed. -/
theorem claim_C5_witness :
    (executeCalls w5oracle w5calls).length = w5calls.length ∧
    ((executeCalls w5oracle w5calls).get ⟨1, by decide⟩).error = some "boom" ∧
    ((executeCalls w5oracle w5calls).get ⟨1, by decide⟩).response = Json.obj [] ∧
    ((executeCalls w5oracle w5calls).get ⟨0, by decide⟩).error = none ∧
    ((executeCalls w5oracle w5calls).get ⟨2, by decide⟩).error = none := by
  have h := claim_C5 w5oracle w5calls
  refine ⟨h.1, ?_, ?_, ?_, ?_⟩
  · exact ((h.2 1 (by decide) (by decide)).2.2 "boom" rfl).1
  · exact ((h.2 1 (by decide) (by decide)).2.2 "boom" rfl).2
  · exact ((h.2 0 (by decide) (by decide)).2.1 (Json.obj [("ok", Json.bool true)]) rfl).1
  · exact ((h.2 2 (by decide) (by decide)).2.1 (Json.obj [("ok", Json.bool true)]) rfl).1

/-- C9: a `/chat` request whose `query` is missing, empty, or whitespace-only
after trimming is answered with the 400 error `query is required`, and the
result does not depend on the downstream pipeline (quantified over every
`runPipeline`), so the Planner is never invoked. -/
theorem claim_C9 {R : Type} (runPipeline : String → R) (q : Option String)
    (h : pyStrip (q.getD "") = "") :
    chatEndpoint runPipeline q = Except.error (400, "query is required") := by
  simp [chatEndpoint, h]

/-- Witness for C9 at a whitespace-only query. -/
theorem claim_C9_witness :
    pyStrip ((some "  \t " : Option String).getD "") = "" ∧
    chatEndpoint (fun s => s.length) (some "  \t ") =
      Except.error (400, "query is required") :=
  ⟨by decide, claim_C9 (fun s => s.length) (some "  \t ") (by decide)⟩

/-- Counterexample to C6 as stated: a 302 response is non-2xx, yet
`request_json` does not raise — it returns the parsed body normally, because
the code only raises for statuses of 400 and above. -/
theorem claim_C6_cex :
    (resp302.status < 200 ∨ 300 ≤ resp302.status) ∧
    request_json "https://hcm.example.com" "GET" "/x" resp302 =
      Except.ok (Json.obj []) :=
  ⟨Or.inr (by decide), rfl⟩

/-- C6 amended: for every HTTP status of 400 or above, `request_json` raises
a failure whose message carries the status code and the response text
(statuses below 400, including 3xx, do not raise). -/
theorem claim_C6_amended (base method path : String) (resp : HTTPResponse)
    (h : 400 ≤ resp.status) :
    request_json base method path resp =
      Except.error ("HCM API error " ++ toString resp.status ++ " for " ++
        pyUpper method ++ " " ++ buildUrl base (ensureLeadingSlash path) ++ ": " ++
        resp.text) := by
  simp [request_json, h]

/-- Witness for the amended C6 at a concrete 404 response. -/
theorem claim_C6_witness :
    400 ≤ resp404.status ∧
    request_json "https://hcm.example.com" "get" "/x" resp404 =
      Except.error "HCM API error 404 for GET https://hcm.example.com/x: Not Found" := by
  refine ⟨by decide, ?_⟩
  rw [claim_C6_amended "https://hcm.example.com" "get" "/x" resp404 (by decide)]
  exact congrArg Except.error (by decide)

/-- Counterexample to C3 as stated: a GET call whose path matches no catalog
entry keeps its body through validation (the unmatched branch `continue`s
before the GET body-clearing line). -/
theorem claim_C3_cex :
    c3cex.method = "GET" ∧
    matchCatalogEntry (forceVersionStr c3cex.path) = none ∧
    (constrainCall c3cex).body = some (Json.obj [("a", Json.num 1)]) :=
  ⟨rfl, rfl, rfl⟩

/-- C3 amended: a GET call (case-insensitive) whose version-forced path
matches a catalog entry comes out of validation with an empty body; a GET
call matching no entry keeps its body unchanged. -/
theorem claim_C3_amended (p : Plan) (c : APICall) (hc : c ∈ p.api_calls)
    (hGet : pyUpper c.method = "GET") :
    constrainCall c ∈ (constrainPlanToCatalog p).api_calls ∧
    (matchCatalogEntry (forceVersionStr c.path) ≠ none → (constrainCall c).body = none) ∧
    (matchCatalogEntry (forceVersionStr c.path) = none → (constrainCall c).body = c.body) := by
  refine ⟨List.mem_map_of_mem constrainCall hc, ?_, ?_⟩
  · intro h
    cases hm : matchCatalogEntry (forceVersionStr c.path) with
    | none => exact absurd hm h
    | some x =>
      obtain ⟨g, k, entry⟩ := x
      simp [constrainCall, hm, hGet]
  · intro hm
    simp [constrainCall, hm]

/-- Witness for the amended C3: the matched lowercase-`get` call `w3call`
loses its body. -/
theorem claim_C3_witness :
    w3call.body = some (Json.obj [("a", Json.num 1)]) ∧
    (constrainCall w3call).body = none :=
  ⟨rfl, (claim_C3_amended w3plan w3call (by simp [w3plan]) (by decide)).2.1 (by decide)⟩

/-- C4: a call whose version-forced path matches no catalog entry comes out
of validation with empty `params`, while its `path` (beyond version forcing),
`method`, `description` and `body` are unchanged; the validator is a total
function, so no exception is raised. -/
theorem claim_C4 (p : Plan) (c : APICall) (hc : c ∈ p.api_calls)
    (h : matchCatalogEntry (forceVersionStr c.path) = none) :
    constrainCall c ∈ (constrainPlanToCatalog p).api_calls ∧
    constrainCall c = { c with path := forceVersionStr c.path, params := [] } :=
  ⟨List.mem_map_of_mem constrainCall hc, by simp [constrainCall, h]⟩

/-- Witness for C4 at a concrete unmatched POST call: params are cleared, the
version inside the path is still forced, and method/body/description are kept. -/
theorem claim_C4_witness :
    matchCatalogEntry (forceVersionStr w4call.path) = none ∧
    constrainCall w4call = { w4call with path := forceVersionStr w4call.path, params := [] } ∧
    forceVersionStr w4call.path = "/foo/resources/11.13.18.05/x" ∧
    (constrainCall w4call).body = some (Json.str "payload") := by
  have h := claim_C4 w4plan w4call (by simp [w4plan]) rfl
  refine ⟨rfl, h.2, rfl, ?_⟩
  rw [h.2]
  rfl

/-- C1: for every call of a plan whose version-forced path matches a catalog
entry, the validated call's params keys all belong to the entry's allow-list,
and an empty allow-list forces empty params; the validator is total, so
dropped keys raise no error. -/
theorem claim_C1 (p : Plan) (c : APICall) (hc : c ∈ p.api_calls)
    (g k : String) (entry : CatalogEntry)
    (hm : matchCatalogEntry (forceVersionStr c.path) = some (g, k, entry)) :
    constrainCall c ∈ (constrainPlanToCatalog p).api_calls ∧
    (∀ kv ∈ (constrainCall c).params, kv.1 ∈ entry.queryParams) ∧
    (entry.queryParams = [] → (constrainCall c).params = []) := by
  refine ⟨List.mem_map_of_mem constrainCall hc, ?_, ?_⟩
  · intro kv hkv
    by_cases he : entry.queryParams.isEmpty
    · simp [constrainCall, hm, he] at hkv
    · simp [constrainCall, hm, he, filterParams, List.mem_filter] at hkv
      simpa using hkv.2
  · intro he
    simp [constrainCall, hm, he]

/-- Witness for C1: the end-to-end scenario — the proposed `listUserAccounts`
call carrying the invented `filter=GUID eq ABC-123` parameter matches the
catalog entry with empty allow-list, and validation leaves `params` empty. -/
theorem claim_C1_witness :
    matchCatalogEntry (forceVersionStr w1call.path) =
      some ("Users", "listUserAccounts", listUserAccountsEntry) ∧
    w1call.params = [("filter", Json.str "GUID eq ABC-123")] ∧
    (constrainCall w1call).params = [] :=
  ⟨rfl, rfl,
    (claim_C1 w1plan w1call (by simp [w1plan]) "Users" "listUserAccounts"
      listUserAccountsEntry rfl).2.2 rfl⟩



/-- In-place update of a present key makes `find?` return the new binding. -/
theorem find?_map_set (k : String) (v : Json) :
    ∀ d : List (String × Json), d.any (fun kv => kv.1 == k) = true →
      List.find? (fun kv => kv.1 == k)
        (d.map (fun kv => if kv.1 == k then (k, v) else kv)) = some (k, v) := by
  intro d
  induction d with
  | nil => simp
  | cons kv rest ih =>
    intro hany
    cases h1 : (kv.1 == k) with
    | true =>
      rw [List.map_cons, if_pos h1]
      exact List.find?_cons_of_pos _ (by simp)
    | false =>
      have h2 : rest.any (fun kv => kv.1 == k) = true := by
        simpa [List.any_cons, h1] using hany
      rw [List.map_cons, if_neg (by simp [h1])]
      rw [List.find?_cons_of_neg _ (by simp [h1])]
      exact ih h2

/-- Appending a binding for an absent key makes `find?` return it. -/
theorem find?_append_absent (k : String) (v : Json) :
    ∀ d : List (String × Json), d.any (fun kv => kv.1 == k) = false →
      List.find? (fun kv => kv.1 == k) (d ++ [(k, v)]) = some (k, v) := by
  intro d
  induction d with
  | nil => exact fun _ => List.find?_cons_of_pos _ (by simp)
  | cons kv rest ih =>
    intro hany
    simp only [List.any_cons, Bool.or_eq_false_iff] at hany
    rw [List.cons_append, List.find?_cons_of_neg _ (by simp [hany.1])]
    exact ih hany.2

/-- A successful `find?` for the key determines `dictGet`. -/
theorem dictGet_of_find? (d : List (String × Json)) (k : String) (v : Json)
    (h : List.find? (fun kv => kv.1 == k) d = some (k, v)) : dictGet d k = some v := by
  simp only [dictGet, h]

/-- Setting a key always makes it retrievable with the written value. -/
theorem dictGet_dictSet (d : List (String × Json)) (k : String) (v : Json) :
    dictGet (dictSet d k v) k = some v := by
  cases hc : dictContainsKey d k with
  | true =>
    have hset : dictSet d k v = d.map (fun kv => if kv.1 == k then (k, v) else kv) := by
      simp [dictSet, hc]
    rw [hset]
    exact dictGet_of_find? _ _ _ (find?_map_set k v d (by simpa [dictContainsKey] using hc))
  | false =>
    have hset : dictSet d k v = d ++ [(k, v)] := by
      simp [dictSet, hc]
    rw [hset]
    exact dictGet_of_find? _ _ _ (find?_append_absent k v d (by simpa [dictContainsKey] using hc))

/-- The `offset` parameter sent for page `pageIndex` is
`pageIndex * pageSize`. -/
theorem pageParamsFor_offset (base : List (String × Json)) (pageSize pageIndex : Nat) :
    dictGet (pageParamsFor base pageSize pageIndex) "offset" =
      some (Json.num (Int.ofNat (pageIndex * pageSize))) :=
  dictGet_dictSet _ _ _

/-- Unfolding `getPagAux` when the page has a short `items` list (early stop). -/
theorem getPagAux_stop (fetch : List (String × Json) → Json) (base : List (String × Json))
    (pageSize n idx : Nat) (items : List Json)
    (h : getItems (fetch (pageParamsFor base pageSize idx)) = some items)
    (hlt : items.length < pageSize) :
    getPagAux fetch base pageSize (n + 1) idx =
      (items, [fetch (pageParamsFor base pageSize idx)]) := by
  simp [getPagAux, h, hlt]

/-- Unfolding `getPagAux` when the page is full (loop continues). -/
theorem getPagAux_cont (fetch : List (String × Json) → Json) (base : List (String × Json))
    (pageSize n idx : Nat) (items : List Json)
    (h : getItems (fetch (pageParamsFor base pageSize idx)) = some items)
    (hlt : ¬ items.length < pageSize) :
    getPagAux fetch base pageSize (n + 1) idx =
      (items ++ (getPagAux fetch base pageSize n (idx + 1)).1,
       fetch (pageParamsFor base pageSize idx)
         :: (getPagAux fetch base pageSize n (idx + 1)).2) := by
  simp [getPagAux, h, hlt]

/-- Unfolding `getPagAux` when the page has no list-valued `items` field
(single final page). -/
theorem getPagAux_none (fetch : List (String × Json) → Json) (base : List (String × Json))
    (pageSize n idx : Nat)
    (h : getItems (fetch (pageParamsFor base pageSize idx)) = none) :
    getPagAux fetch base pageSize (n + 1) idx =
      ([], [fetch (pageParamsFor base pageSize idx)]) := by
  simp [getPagAux, h]

/-- The pagination loop runs at most `budget` iterations. -/
theorem getPagAux_pages_length_le (fetch : List (String × Json) → Json)
    (base : List (String × Json)) (pageSize : Nat) :
    ∀ budget idx, ((getPagAux fetch base pageSize budget idx).2).length ≤ budget := by
  intro budget
  induction budget with
  | zero => intro idx; simp [getPagAux]
  | succ n ih =>
    intro idx
    cases hgi : getItems (fetch (pageParamsFor base pageSize idx)) with
    | none => rw [getPagAux_none fetch base pageSize n idx hgi]; simp
    | some items =>
      by_cases hlt : items.length < pageSize
      · rw [getPagAux_stop fetch base pageSize n idx items hgi hlt]; simp
      · rw [getPagAux_cont fetch base pageSize n idx items hgi hlt]
        simpa using Nat.succ_le_succ (ih (idx + 1))

/-- The `i`-th fetched page is the response to the request for page
index `idx + i`. -/
theorem getPagAux_pages_get (fetch : List (String × Json) → Json)
    (base : List (String × Json)) (pageSize : Nat) :
    ∀ budget idx i (h : i < ((getPagAux fetch base pageSize budget idx).2).length),
      ((getPagAux fetch base pageSize budget idx).2).get ⟨i, h⟩ =
        fetch (pageParamsFor base pageSize (idx + i)) := by
  intro budget
  induction budget with
  | zero => intro idx i h; simp [getPagAux] at h
  | succ n ih =>
    intro idx i
    cases hgi : getItems (fetch (pageParamsFor base pageSize idx)) with
    | none =>
      rw [getPagAux_none fetch base pageSize n idx hgi]
      intro h
      cases i with
      | zero => simp
      | succ j => simp at h
    | some items =>
      by_cases hlt : items.length < pageSize
      · rw [getPagAux_stop fetch base pageSize n idx items hgi hlt]
        intro h
        cases i with
        | zero => simp
        | succ j => simp at h
      · rw [getPagAux_cont fetch base pageSize n idx items hgi hlt]
        intro h
        cases i with
        | zero => simp
        | succ j =>
          have hj : j < ((getPagAux fetch base pageSize n (idx + 1)).2).length := by
            simpa using h
          have := ih (idx + 1) j hj
          rw [show idx + (j + 1) = idx + 1 + j by omega]
          simpa using this

/-- Every page other than the last one fetched was a full page with a
list-valued `items` field. -/
theorem getPagAux_full_pages (fetch : List (String × Json) → Json)
    (base : List (String × Json)) (pageSize : Nat) :
    ∀ budget idx i, i + 1 < ((getPagAux fetch base pageSize budget idx).2).length →
      ∃ l, ∃ h2 : i < ((getPagAux fetch base pageSize budget idx).2).length,
        getItems (((getPagAux fetch base pageSize budget idx).2).get ⟨i, h2⟩) = some l ∧
        pageSize ≤ l.length := by
  intro budget
  induction budget with
  | zero => intro idx i h; simp [getPagAux] at h
  | succ n ih =>
    intro idx i
    cases hgi : getItems (fetch (pageParamsFor base pageSize idx)) with
    | none =>
      rw [getPagAux_none fetch base pageSize n idx hgi]
      intro h
      simp at h
    | some items =>
      by_cases hlt : items.length < pageSize
      · rw [getPagAux_stop fetch base pageSize n idx items hgi hlt]
        intro h
        simp at h
      · rw [getPagAux_cont fetch base pageSize n idx items hgi hlt]
        intro h
        cases i with
        | zero =>
          exact ⟨items, by simp, by simpa using hgi, Nat.le_of_not_lt hlt⟩
        | succ j =>
          obtain ⟨l, h2, hl, hle⟩ := ih (idx + 1) j (by simpa using h)
          exact ⟨l, by simpa using Nat.succ_lt_succ h2, by simpa using hl, hle⟩

/-- The accumulated `all_items` list is the concatenation of the `items`
lists of the fetched pages. -/
theorem getPagAux_items_flatten (fetch : List (String × Json) → Json)
    (base : List (String × Json)) (pageSize : Nat) :
    ∀ budget idx,
      (getPagAux fetch base pageSize budget idx).1 =
        (((getPagAux fetch base pageSize budget idx).2).map
          (fun pg => (getItems pg).getD [])).flatten := by
  intro budget
  induction budget with
  | zero => intro idx; simp [getPagAux]
  | succ n ih =>
    intro idx
    cases hgi : getItems (fetch (pageParamsFor base pageSize idx)) with
    | none => rw [getPagAux_none fetch base pageSize n idx hgi]; simp [hgi]
    | some items =>
      by_cases hlt : items.length < pageSize
      · rw [getPagAux_stop fetch base pageSize n idx items hgi hlt]; simp [hgi]
      · rw [getPagAux_cont fetch base pageSize n idx items hgi hlt]
        simp [hgi, ih (idx + 1)]

/-- C7: the pagination helper requests page `i` with offset `i * pageSize`,
stops as soon as a page's `items` list is shorter than the page size (every
non-final fetched page was full), never exceeds the maximum page count, and
on the concrete [100, 100, 37] endpoint returns 237 aggregated items from
exactly 3 fetched pages — the poison pages `mock237` serves at offsets ≥ 300
certify that no 4th request is issued (each loop iteration appends exactly
one page, so `pages` counts the requests made). -/
theorem claim_C7 (fetch : List (String × Json) → Json) (base : List (String × Json))
    (pageSize maxPages : Nat) :
    (∀ i (h : i < ((getPagAux fetch base pageSize maxPages 0).2).length),
        ((getPagAux fetch base pageSize maxPages 0).2).get ⟨i, h⟩ =
          fetch (pageParamsFor base pageSize i) ∧
        dictGet (pageParamsFor base pageSize i) "offset" =
          some (Json.num (Int.ofNat (i * pageSize)))) ∧
    (∀ i, i + 1 < ((getPagAux fetch base pageSize maxPages 0).2).length →
        ∃ l, ∃ h2 : i < ((getPagAux fetch base pageSize maxPages 0).2).length,
          getItems (((getPagAux fetch base pageSize maxPages 0).2).get ⟨i, h2⟩) = some l ∧
          pageSize ≤ l.length) ∧
    ((getPagAux fetch base pageSize maxPages 0).2).length ≤ maxPages ∧
    ((getPagAux mock237 [] 100 10 0).1.length = 237 ∧
     (getPagAux mock237 [] 100 10 0).2.length = 3 ∧
     get_paginated mock237 [] 100 10 =
       Json.obj [("items", Json.arr (getPagAux mock237 [] 100 10 0).1),
                 ("pages", Json.arr (getPagAux mock237 [] 100 10 0).2)]) := by
  refine ⟨?_, ?_, getPagAux_pages_length_le fetch base pageSize maxPages 0, ?_, ?_, ?_⟩
  · intro i h
    exact ⟨by simpa using getPagAux_pages_get fetch base pageSize maxPages 0 i h,
      pageParamsFor_offset base pageSize i⟩
  · intro i h
    exact getPagAux_full_pages fetch base pageSize maxPages 0 i h
  · exact by set_option maxRecDepth 10000 in rfl
  · exact by set_option maxRecDepth 10000 in rfl
  · exact by set_option maxRecDepth 10000 in rfl

/-- Witness for C7 at the concrete `mock237` endpoint: the second page was
requested with offset 100, the first page was full, and at most 10 pages are
fetched. -/
theorem claim_C7_witness :
    (((getPagAux mock237 [] 100 10 0).2).get ⟨1, by set_option maxRecDepth 10000 in decide⟩ =
        mock237 (pageParamsFor [] 100 1) ∧
      dictGet (pageParamsFor [] 100 1) "offset" = some (Json.num (Int.ofNat 100))) ∧
    (∃ l, ∃ h2 : 0 < ((getPagAux mock237 [] 100 10 0).2).length,
      getItems (((getPagAux mock237 [] 100 10 0).2).get ⟨0, h2⟩) = some l ∧
      100 ≤ l.length) ∧
    ((getPagAux mock237 [] 100 10 0).2).length ≤ 10 := by
  have h := claim_C7 mock237 [] 100 10
  refine ⟨?_, h.2.1 0 (by set_option maxRecDepth 10000 in decide), h.2.2.1⟩
  have h1 := h.1 1 (by set_option maxRecDepth 10000 in decide)
  exact ⟨h1.1, by simpa using h1.2⟩

/-- Counterexample to C8 as stated: a page whose `items` field is an empty
list *did* produce an items list, yet the aggregate is omitted from the
result (the code keys the omission on the aggregate being empty, not on
whether any page produced an items list). -/
theorem claim_C8_cex :
    getItems (fetchEmptyItems (pageParamsFor [] 100 0)) = some [] ∧
    get_paginated fetchEmptyItems [] 100 10 =
      Json.obj [("pages", Json.arr [Json.obj [("items", Json.arr [])]])] ∧
    jsonField "items" (get_paginated fetchEmptyItems [] 100 10) = none :=
  ⟨rfl, rfl, rfl⟩

/-- C8 amended: the aggregate equals the concatenation of the `items` lists
of all fetched pages; a response without a list-valued `items` field is a
single final page returned under `pages`; and the result omits the `items`
aggregate exactly when that concatenation is empty (so also when pages
produced only empty items lists). -/
theorem claim_C8_amended (fetch : List (String × Json) → Json)
    (base : List (String × Json)) (pageSize maxPages : Nat) :
    ((getPagAux fetch base pageSize maxPages 0).1 =
      (((getPagAux fetch base pageSize maxPages 0).2).map
        (fun pg => (getItems pg).getD [])).flatten) ∧
    (jsonField "items" (get_paginated fetch base pageSize maxPages) = none ↔
      (getPagAux fetch base pageSize maxPages 0).1 = []) ∧
    (jsonField "pages" (get_paginated fetch base pageSize maxPages) =
      some (Json.arr (getPagAux fetch base pageSize maxPages 0).2)) ∧
    (∀ n, maxPages = n + 1 →
      getItems (fetch (pageParamsFor base pageSize 0)) = none →
      get_paginated fetch base pageSize maxPages =
        Json.obj [("pages", Json.arr [fetch (pageParamsFor base pageSize 0)])]) := by
  refine ⟨getPagAux_items_flatten fetch base pageSize maxPages 0, ?_, ?_, ?_⟩
  · by_cases he : (getPagAux fetch base pageSize maxPages 0).1 = []
    · simp [get_paginated, he, jsonField, dictGet]
    · simp [get_paginated, he, jsonField, dictGet, List.find?]
  · by_cases he : (getPagAux fetch base pageSize maxPages 0).1 = []
    · simp [get_paginated, he, jsonField, dictGet, List.find?]
    · have : ((getPagAux fetch base pageSize maxPages 0).1).isEmpty = false := by
        simpa [List.isEmpty_iff] using he
      simp [get_paginated, this, jsonField, dictGet, List.find?]
  · intro n hn hnone
    subst hn
    rw [show get_paginated fetch base pageSize (n + 1) =
      (if ((getPagAux fetch base pageSize (n + 1) 0).1).isEmpty
        then Json.obj [("pages", Json.arr (getPagAux fetch base pageSize (n + 1) 0).2)]
        else Json.obj [("items", Json.arr (getPagAux fetch base pageSize (n + 1) 0).1),
                       ("pages", Json.arr (getPagAux fetch base pageSize (n + 1) 0).2)]) from rfl]
    rw [getPagAux_none fetch base pageSize n 0 hnone]
    rfl

/-- Witness for the amended C8 at the spec's non-list scenario: a
`{"status": 200, "content": ...}` response yields exactly that one page under
`pages` and no `items` aggregate. -/
theorem claim_C8_witness :
    get_paginated fetchNoItems [] 100 10 =
      Json.obj [("pages", Json.arr
        [Json.obj [("status", Json.num 200), ("content", Json.str "not json")]])] ∧
    jsonField "items" (get_paginated fetchNoItems [] 100 10) = none := by
  have h := claim_C8_amended fetchNoItems [] 100 10
  exact ⟨h.2.2.2 9 rfl rfl, (h.2.1).mpr rfl⟩

/-- `dropLit` succeeds exactly on lists having the literal as a prefix. -/
theorem dropLit_eq_some : ∀ (p s r : List Char), dropLit p s = some r ↔ s = p ++ r := by
  intro p
  induction p with
  | nil =>
    intro s r
    simp [dropLit, stripLit]
  | cons a p ih =>
    intro s r
    cases s with
    | nil => simp [dropLit, stripLit]
    | cons c cs =>
      by_cases hca : c = a
      · subst hca
        have := ih cs r
        simp [dropLit, stripLit] at this ⊢
        exact this
      · simp [dropLit, stripLit, hca, Ne.symm hca]

/-- `consumeSeg` succeeds exactly on lists of the shape
`w ++ '/' :: r` with slash-free `w`, returning the part after the first
slash. -/
theorem consumeSeg_eq_some : ∀ (s r : List Char),
    consumeSeg s = some r ↔ ∃ w, (∀ a ∈ w, a ≠ '/') ∧ s = w ++ '/' :: r := by
  intro s
  induction s with
  | nil =>
    intro r
    constructor
    · intro h; simp [consumeSeg] at h
    · rintro ⟨w, _, hw⟩; exact absurd hw (by simp)
  | cons c cs ih =>
    intro r
    by_cases hc : c = '/'
    · subst hc
      constructor
      · intro h
        simp [consumeSeg] at h
        exact ⟨[], by simp, by simp [h]⟩
      · rintro ⟨w, hns, hw⟩
        cases w with
        | nil => simp at hw; simp [consumeSeg, hw]
        | cons a w =>
          have : a ≠ '/' := hns a (by simp)
          have : ('/' : Char) = a := by
            have := congrArg (fun l => l.head?) hw
            simpa using this
          exact absurd this.symm ‹a ≠ '/'›
    · constructor
      · intro h
        simp only [consumeSeg, if_neg hc] at h
        obtain ⟨w, hns, hw⟩ := (ih r).mp h
        exact ⟨c :: w, by simpa [hc] using hns, by simp [hw]⟩
      · rintro ⟨w, hns, hw⟩
        cases w with
        | nil => simp at hw; exact absurd hw.1 hc
        | cons a w =>
          simp at hw
          simp only [consumeSeg, if_neg hc]
          exact (ih r).mpr ⟨w, fun x hx => hns x (by simp [hx]), by
            have := hw.2; simpa [hw.1] using this⟩

/-- `segSlash` succeeds exactly on `w ++ '/' :: r` with `w` nonempty and
slash-free. -/
theorem segSlash_eq_some : ∀ (s r : List Char),
    segSlash s = some r ↔ ∃ w, w ≠ [] ∧ (∀ a ∈ w, a ≠ '/') ∧ s = w ++ '/' :: r := by
  intro s r
  cases s with
  | nil =>
    constructor
    · intro h; simp [segSlash] at h
    · rintro ⟨w, hw, _, hs⟩; exact absurd hs (by simp)
  | cons c cs =>
    by_cases hc : c = '/'
    · subst hc
      constructor
      · intro h; simp [segSlash] at h
      · rintro ⟨w, hw, hns, hs⟩
        cases w with
        | nil => simp at hw
        | cons a w =>
          simp at hs
          exact absurd hs.1.symm (hns a (by simp))
    · constructor
      · intro h
        simp only [segSlash, if_neg hc] at h
        obtain ⟨w, hns, hw⟩ := (consumeSeg_eq_some cs r).mp h
        exact ⟨c :: w, by simp, by simpa [hc] using hns, by simp [hw]⟩
      · rintro ⟨w, hw, hns, hs⟩
        cases w with
        | nil => simp at hw
        | cons a w =>
          simp at hs
          simp only [segSlash, if_neg hc]
          exact (consumeSeg_eq_some cs r).mpr
            ⟨w, fun x hx => hns x (by simp [hx]), by simpa [hs.1] using hs.2⟩

/-- The full characterization of a head match of `/resources/[^/]+/`. -/
theorem splitMatch_eq_some (s r : List Char) :
    splitMatch s = some r ↔
      ∃ w, w ≠ [] ∧ (∀ a ∈ w, a ≠ '/') ∧ s = litResources ++ (w ++ '/' :: r) := by
  constructor
  · intro h
    cases hd : dropLit litResources s with
    | none => simp [splitMatch, hd] at h
    | some rest =>
      simp only [splitMatch, hd] at h
      obtain ⟨w, hw, hns, hrest⟩ := (segSlash_eq_some rest r).mp h
      exact ⟨w, hw, hns, by rw [(dropLit_eq_some litResources s rest).mp hd, hrest]⟩
  · rintro ⟨w, hw, hns, hs⟩
    have hd : dropLit litResources s = some (w ++ '/' :: r) :=
      (dropLit_eq_some litResources s (w ++ '/' :: r)).mpr hs
    simp only [splitMatch, hd]
    exact (segSlash_eq_some (w ++ '/' :: r) r).mpr ⟨w, hw, hns, rfl⟩

/-- The empty list has no head match. -/
theorem splitMatch_nil : splitMatch [] = none := rfl

/-- A head match consumes at least 13 characters. -/
theorem splitMatch_length {s r : List Char} (h : splitMatch s = some r) :
    r.length + 13 ≤ s.length := by
  obtain ⟨w, hw, _, hs⟩ := (splitMatch_eq_some s r).mp h
  have hw1 : 1 ≤ w.length := by
    cases w with
    | nil => exact absurd rfl hw
    | cons a w => simp
  have : litResources.length = 11 := by decide
  simp [hs, this]
  omega


/-- `subAllF` on the empty list, any fuel. -/
theorem subAllF_nil : ∀ fuel, subAllF fuel [] = [] := by
  intro fuel
  cases fuel <;> rfl

/-- Unfolding `subAllF` at a head match. -/
theorem subAllF_cons_match {c : Char} {cs rest : List Char} (fuel : Nat)
    (h : splitMatch (c :: cs) = some rest) :
    subAllF (fuel + 1) (c :: cs) = replResources ++ subAllF fuel rest := by
  simp [subAllF, h]

/-- Unfolding `subAllF` when the head starts no match. -/
theorem subAllF_cons_nomatch {c : Char} {cs : List Char} (fuel : Nat)
    (h : splitMatch (c :: cs) = none) :
    subAllF (fuel + 1) (c :: cs) = c :: subAllF fuel cs := by
  simp [subAllF, h]

/-- The fuel is irrelevant once it covers the length of the input. -/
theorem subAllF_congr : ∀ (f₁ f₂ : Nat) (s : List Char),
    s.length ≤ f₁ → s.length ≤ f₂ → subAllF f₁ s = subAllF f₂ s := by
  intro f₁
  induction f₁ with
  | zero =>
    intro f₂ s h1 h2
    have : s = [] := by
      cases s with
      | nil => rfl
      | cons c cs => simp at h1
    subst this
    rw [subAllF_nil, subAllF_nil]
  | succ n ih =>
    intro f₂ s h1 h2
    cases s with
    | nil => rw [subAllF_nil, subAllF_nil]
    | cons c cs =>
      cases f₂ with
      | zero => simp at h2
      | succ m =>
        cases hsm : splitMatch (c :: cs) with
        | some rest =>
          have hr := splitMatch_length hsm
          simp only [List.length_cons] at h1 h2 hr
          rw [subAllF_cons_match n hsm, subAllF_cons_match m hsm,
            ih m rest (by omega) (by omega)]
        | none =>
          simp only [List.length_cons] at h1 h2
          rw [subAllF_cons_nomatch n hsm, subAllF_cons_nomatch m hsm,
            ih m cs (by omega) (by omega)]

/-- Unfolding `subAll` at a head match. -/
theorem subAll_match {s rest : List Char} (h : splitMatch s = some rest) :
    subAll s = replResources ++ subAll rest := by
  cases s with
  | nil => rw [splitMatch_nil] at h; exact absurd h (by simp)
  | cons c cs =>
    have hr := splitMatch_length h
    simp only [List.length_cons] at hr
    show subAllF (c :: cs).length (c :: cs) = _
    simp only [List.length_cons]
    rw [subAllF_cons_match cs.length h,
      subAllF_congr cs.length rest.length rest (by omega) le_rfl]
    rfl

/-- Unfolding `subAll` when the head starts no match. -/
theorem subAll_nomatch {c : Char} {cs : List Char} (h : splitMatch (c :: cs) = none) :
    subAll (c :: cs) = c :: subAll cs := by
  show subAllF (c :: cs).length (c :: cs) = _
  simp only [List.length_cons]
  rw [subAllF_cons_nomatch cs.length h]
  rfl

/-- A list in which the regex matches nowhere is left unchanged. -/
theorem subAll_of_hasMatchB_false : ∀ s : List Char, hasMatchB s = false → subAll s = s := by
  intro s
  induction s with
  | nil => intro _; rfl
  | cons c cs ih =>
    intro h
    simp only [hasMatchB, Bool.or_eq_false_iff] at h
    cases hsm : splitMatch (c :: cs) with
    | some rest => rw [hsm] at h; simp at h
    | none => rw [subAll_nomatch hsm, ih h.2]

/-- Structure of one pass of `subAll`: either nothing matches and the list is
unchanged, or the list splits at its leftmost match, which gets replaced. -/
theorem subAll_decomp : ∀ s : List Char, subAll s = s ∨
    ∃ p w rest, w ≠ [] ∧ (∀ a ∈ w, a ≠ '/') ∧
      s = p ++ (litResources ++ (w ++ '/' :: rest)) ∧
      subAll s = p ++ (replResources ++ subAll rest) := by
  intro s
  induction s with
  | nil => exact Or.inl rfl
  | cons c cs ih =>
    cases hsm : splitMatch (c :: cs) with
    | some rest =>
      obtain ⟨w, hw, hns, hs⟩ := (splitMatch_eq_some (c :: cs) rest).mp hsm
      exact Or.inr ⟨[], w, rest, hw, hns, by simpa using hs, by
        simpa using subAll_match hsm⟩
    | none =>
      cases ih with
      | inl hid => exact Or.inl (by rw [subAll_nomatch hsm, hid])
      | inr hdec =>
        obtain ⟨p, w, rest, hw, hns, hcs, hout⟩ := hdec
        exact Or.inr ⟨c :: p, w, rest, hw, hns, by simp [hcs], by
          rw [subAll_nomatch hsm, hout]; simp⟩

/-- The replacement text itself starts a match, consuming exactly itself. -/
theorem splitMatch_repl (t : List Char) : splitMatch (replResources ++ t) = some t := by
  apply (splitMatch_eq_some (replResources ++ t) t).mpr
  refine ⟨HCM_API_DEFAULT_VERSION.data, by decide, by decide, ?_⟩
  have h : replResources = litResources ++ (HCM_API_DEFAULT_VERSION.data ++ ['/']) := by decide
  rw [h]
  simp

/-- Key stability property: if the head of `c :: cs` starts no match, then
after rewriting the tail the head still starts no match.  The only way a new
head match could appear is across the boundary of a replaced block, and every
such alignment forces a match already present in the original list. -/
theorem splitMatch_none_subAll (c : Char) (cs : List Char)
    (h : splitMatch (c :: cs) = none) : splitMatch (c :: subAll cs) = none := by
  rcases subAll_decomp cs with hid | ⟨p, w, rest, hw, hns, hcs, hout⟩
  · rw [hid]; exact h
  · rw [hout]
    cases hsm : splitMatch (c :: (p ++ (replResources ++ subAll rest))) with
    | none => rfl
    | some r =>
      exfalso
      obtain ⟨seg, hseg, hsegns, heq⟩ :=
        (splitMatch_eq_some (c :: (p ++ (replResources ++ subAll rest))) r).mp hsm
      have hrepl : replResources = '/' :: "resources/11.13.18.05/".data := by decide
      have hlit : litResources = '/' :: "resources/".data := by decide
      have hlit11 : litResources.length = 11 := by decide
      have hcpl : (c :: p).length = p.length + 1 := by simp
      -- the two lists agree on the prefix `(c :: p) ++ ['/']`
      have hApre : ((c :: p) ++ ['/']) <+: (c :: (p ++ (replResources ++ subAll rest))) := by
        refine ⟨"resources/11.13.18.05/".data ++ subAll rest, ?_⟩
        rw [hrepl]
        simp
      have hMpre : (litResources ++ (seg ++ ['/'])) <+:
          (c :: (p ++ (replResources ++ subAll rest))) := by
        refine ⟨r, ?_⟩
        rw [heq]
        simp
      have hlenA : (((c :: p) ++ ['/'])).length = (c :: p).length + 1 := by simp
      have hlenM : ((litResources ++ (seg ++ ['/']))).length = seg.length + 12 := by
        simp [hlit11]
        omega
      rcases Nat.lt_or_ge (((c :: p) ++ ['/']).length)
          ((litResources ++ (seg ++ ['/'])).length) with hlt | hle
      · -- the claimed match extends strictly past the shared prefix
        have hAM : ((c :: p) ++ ['/']) <+: (litResources ++ (seg ++ ['/'])) :=
          List.prefix_of_prefix_length_le hApre hMpre (Nat.le_of_lt hlt)
        rcases Nat.lt_or_ge ((c :: p).length) 11 with h11lt | h11ge
        · -- the literal spans past the shared prefix: forced alignment at `/resources`
          have hlitM : litResources <+: (litResources ++ (seg ++ ['/'])) :=
            ⟨seg ++ ['/'], rfl⟩
          have hAlit : ((c :: p) ++ ['/']) <+: litResources :=
            List.prefix_of_prefix_length_le hAM hlitM (by rw [hlenA, hlit11]; omega)
          have htake : (c :: p) ++ ['/'] = litResources.take (((c :: p) ++ ['/']).length) :=
            List.prefix_iff_eq_take.mp hAlit
          have hlast : ((c :: p) ++ ['/']).getLast? = some '/' := List.getLast?_concat _
          have hkey : ∀ m, m < 12 → 2 ≤ m →
              (litResources.take m).getLast? = some '/' → m = 11 := by decide
          have hm11 : ((c :: p) ++ ['/']).length = 11 := by
            refine hkey (((c :: p) ++ ['/']).length) (by rw [hlenA, hcpl]; omega)
              (by rw [hlenA, hcpl]; omega) ?_
            rw [← htake]
            exact hlast
          have hAeq' : (c :: p) ++ ['/'] = "/resources".data ++ ['/'] := by
            rw [htake, hm11]
            decide
          have hcp : c :: p = "/resources".data := List.append_inj_left' hAeq' rfl
          have hcs2 : c :: cs = litResources ++
              ("resources".data ++ '/' :: (w ++ '/' :: rest)) := by
            have e1 : c :: cs = "/resources".data ++ (litResources ++ (w ++ '/' :: rest)) := by
              rw [hcs, ← hcp]
              simp
            have e2 : "/resources".data ++ litResources =
                litResources ++ ("resources".data ++ ['/']) := by decide
            calc c :: cs
                = ("/resources".data ++ litResources) ++ (w ++ '/' :: rest) := by
                  rw [e1]; simp
              _ = (litResources ++ ("resources".data ++ ['/'])) ++ (w ++ '/' :: rest) := by
                  rw [e2]
              _ = litResources ++ ("resources".data ++ '/' :: (w ++ '/' :: rest)) := by
                  simp
          have : splitMatch (c :: cs) = some (w ++ '/' :: rest) :=
            (splitMatch_eq_some (c :: cs) (w ++ '/' :: rest)).mpr
              ⟨"resources".data, by decide, by decide, hcs2⟩
          rw [this] at h
          exact absurd h (by simp)
        · -- the shared prefix covers the literal: its final slash lands inside `seg`
          obtain ⟨z, hz⟩ := hAM
          have hsub : (c :: p).length - 11 < seg.length := by
            rw [hlenA] at hlt
            rw [hlenM] at hlt
            omega
          have hL : (((c :: p) ++ ['/']) ++ z)[(c :: p).length]? = some '/' := by
            rw [List.getElem?_append]
            have hq : (c :: p).length < ((c :: p) ++ ['/']).length := by simp
            rw [if_pos hq, List.getElem?_append_right (Nat.le_refl ((c :: p).length))]
            simp
          have hR : ((litResources ++ (seg ++ ['/'])))[(c :: p).length]? =
              seg[(c :: p).length - 11]? := by
            rw [List.getElem?_append_right (by rw [hlit11]; omega), hlit11,
              List.getElem?_append, if_pos hsub]
          have htrans : (((c :: p) ++ ['/']) ++ z)[(c :: p).length]? =
              ((litResources ++ (seg ++ ['/'])))[(c :: p).length]? := by
            rw [hz]
          have hfin : seg[(c :: p).length - 11]? = some '/' := by
            rw [← hR, ← htrans]
            exact hL
          exact hsegns '/' (List.getElem?_mem hfin) rfl
      · -- the claimed match fits inside the shared prefix: it was already there
        have hMA : (litResources ++ (seg ++ ['/'])) <+: ((c :: p) ++ ['/']) :=
          List.prefix_of_prefix_length_le hMpre hApre hle
        have hAin : ((c :: p) ++ ['/']) <+: (c :: cs) := by
          refine ⟨"resources/".data ++ (w ++ '/' :: rest), ?_⟩
          rw [hcs, hlit]
          simp
        have hMin : (litResources ++ (seg ++ ['/'])) <+: (c :: cs) := hMA.trans hAin
        obtain ⟨t, ht⟩ := hMin
        have : splitMatch (c :: cs) = some t :=
          (splitMatch_eq_some (c :: cs) t).mpr ⟨seg, hseg, hsegns, by rw [← ht]; simp⟩
        rw [this] at h
        exact absurd h (by simp)

/-- One pass of the global substitution is idempotent. -/
theorem subAll_idem_aux : ∀ (n : Nat) (s : List Char), s.length ≤ n →
    subAll (subAll s) = subAll s := by
  intro n
  induction n with
  | zero =>
    intro s hs
    have : s = [] := by
      cases s with
      | nil => rfl
      | cons c cs => simp at hs
    subst this
    rfl
  | succ n ih =>
    intro s hs
    cases s with
    | nil => rfl
    | cons c cs =>
      cases hsm : splitMatch (c :: cs) with
      | some rest =>
        rw [subAll_match hsm, subAll_match (splitMatch_repl (subAll rest))]
        have hr := splitMatch_length hsm
        simp only [List.length_cons] at hr hs
        rw [ih rest (by omega)]
      | none =>
        rw [subAll_nomatch hsm, subAll_nomatch (splitMatch_none_subAll c cs hsm)]
        simp only [List.length_cons] at hs
        rw [ih cs (by omega)]

/-- `re.sub(r"/resources/[^/]+/", repl, ·)` is idempotent. -/
theorem subAll_idem (s : List Char) : subAll (subAll s) = subAll s :=
  subAll_idem_aux s.length s le_rfl

/-- `_force_version` is idempotent. -/
theorem forceVersionStr_idem (s : String) :
    forceVersionStr (forceVersionStr s) = forceVersionStr s :=
  congrArg String.mk (subAll_idem s.data)

/-- The per-call validator is idempotent. -/
theorem constrainCall_idem (c : APICall) : constrainCall (constrainCall c) = constrainCall c := by
  cases hm : matchCatalogEntry (forceVersionStr c.path) with
  | none =>
    simp [constrainCall, hm, forceVersionStr_idem]
  | some x =>
    obtain ⟨g, k, entry⟩ := x
    by_cases he : entry.queryParams.isEmpty <;> by_cases hg : pyUpper c.method = "GET" <;>
      simp [constrainCall, hm, forceVersionStr_idem, he, hg, filterParams,
        List.filter_filter, Bool.and_self]

/-- C10: the plan validator is idempotent — applying it to its own output
changes nothing. -/
theorem claim_C10 (p : Plan) :
    constrainPlanToCatalog (constrainPlanToCatalog p) = constrainPlanToCatalog p := by
  cases p with
  | mk intent calls =>
    simp only [constrainPlanToCatalog]
    congr 1
    induction calls with
    | nil => rfl
    | cons a l ih => simp [constrainCall_idem, ih]

/-- A head starting with a non-slash character starts no match. -/
theorem splitMatch_head_ne_slash {c : Char} (s : List Char) (h : c ≠ '/') :
    splitMatch (c :: s) = none := by
  have hlit : litResources = '/' :: "resources/".data := by decide
  simp [splitMatch, dropLit, hlit, stripLit, h]

/-- A slash followed by a non-`r` character starts no match. -/
theorem splitMatch_slash_ne_r {c : Char} (s : List Char) (h : c ≠ 'r') :
    splitMatch ('/' :: c :: s) = none := by
  have hlit : litResources = '/' :: 'r' :: "esources/".data := by decide
  simp [splitMatch, dropLit, hlit, stripLit, h]

/-- The scan walks over the literal prefix `/hcmRestApi` unchanged. -/
theorem subAll_hcmHead (t : List Char) :
    subAll ('/' :: 'h' :: 'c' :: 'm' :: 'R' :: 'e' :: 's' :: 't' :: 'A' :: 'p' :: 'i' :: t) =
      '/' :: 'h' :: 'c' :: 'm' :: 'R' :: 'e' :: 's' :: 't' :: 'A' :: 'p' :: 'i' :: subAll t := by
  rw [subAll_nomatch (splitMatch_slash_ne_r _ (by decide)),
    subAll_nomatch (splitMatch_head_ne_slash _ (by decide)),
    subAll_nomatch (splitMatch_head_ne_slash _ (by decide)),
    subAll_nomatch (splitMatch_head_ne_slash _ (by decide)),
    subAll_nomatch (splitMatch_head_ne_slash _ (by decide)),
    subAll_nomatch (splitMatch_head_ne_slash _ (by decide)),
    subAll_nomatch (splitMatch_head_ne_slash _ (by decide)),
    subAll_nomatch (splitMatch_head_ne_slash _ (by decide)),
    subAll_nomatch (splitMatch_head_ne_slash _ (by decide)),
    subAll_nomatch (splitMatch_head_ne_slash _ (by decide)),
    subAll_nomatch (splitMatch_head_ne_slash _ (by decide))]

/-- Version forcing on a canonical HCM path: the interior segment between
`/hcmRestApi/resources/` and the next slash is replaced by the configured
version, whatever it was. -/
theorem subAll_version_path (v b : List Char) (hv : v ≠ []) (hvs : ∀ a ∈ v, a ≠ '/')
    (hb : hasMatchB b = false) :
    subAll ("/hcmRestApi".data ++ (litResources ++ (v ++ '/' :: b))) =
      "/hcmRestApi".data ++ (replResources ++ b) := by
  show subAll ('/' :: 'h' :: 'c' :: 'm' :: 'R' :: 'e' :: 's' :: 't' :: 'A' :: 'p' :: 'i' ::
      (litResources ++ (v ++ '/' :: b))) = _
  rw [subAll_hcmHead]
  rw [subAll_match ((splitMatch_eq_some (litResources ++ (v ++ '/' :: b)) b).mpr
    ⟨v, hv, hvs, rfl⟩)]
  rw [subAll_of_hasMatchB_false b hb]
  rfl

/-- The validated call's path is always the version-forced path. -/
theorem constrainCall_path (c : APICall) : (constrainCall c).path = forceVersionStr c.path := by
  cases hm : matchCatalogEntry (forceVersionStr c.path) with
  | none => simp [constrainCall, hm]
  | some x =>
    obtain ⟨g, k, e⟩ := x
    simp [constrainCall, hm]

/-- Counterexample to C2 as stated: a path ending in the bare version
sentinel `latest` (no trailing slash) keeps it through validation — the
regex `/resources/[^/]+/` requires a slash after the segment — so the
validated path still lacks the configured version. -/
theorem claim_C2_cex :
    (constrainPlanToCatalog c2cexPlan).api_calls.map (fun c => c.path) =
      ["/hcmRestApi/resources/latest"] ∧
    pySubstr HCM_API_DEFAULT_VERSION.data "/hcmRestApi/resources/latest".data = false :=
  ⟨rfl, by decide⟩

/-- C2 amended: for every plan call whose path carries the version as an
interior segment — `/hcmRestApi/resources/<v>/<rest>` with nonempty
slash-free `<v>` (including the `latest` sentinel) and no further
`/resources/<seg>/` occurrence in `<rest>` — validation rewrites that
segment to the configured version 11.13.18.05; a version segment that ends
the path (no trailing slash) is left unchanged. -/
theorem claim_C2_amended (p : Plan) (c : APICall) (hc : c ∈ p.api_calls) (v b : String)
    (hpath : c.path = "/hcmRestApi/resources/" ++ v ++ "/" ++ b)
    (hv : v.data ≠ []) (hvs : ∀ a ∈ v.data, a ≠ '/')
    (hb : hasMatchB b.data = false) :
    constrainCall c ∈ (constrainPlanToCatalog p).api_calls ∧
    (constrainCall c).path =
      "/hcmRestApi/resources/" ++ HCM_API_DEFAULT_VERSION ++ "/" ++ b := by
  refine ⟨List.mem_map_of_mem constrainCall hc, ?_⟩
  have hfv : forceVersionStr c.path =
      "/hcmRestApi/resources/" ++ HCM_API_DEFAULT_VERSION ++ "/" ++ b := by
    rw [hpath]
    show String.mk (subAll ("/hcmRestApi/resources/" ++ v ++ "/" ++ b).data) = _
    have hd : ("/hcmRestApi/resources/" ++ v ++ "/" ++ b).data =
        "/hcmRestApi".data ++ (litResources ++ (v.data ++ '/' :: b.data)) := by
      have h1 : ("/hcmRestApi/resources/" ++ v ++ "/" ++ b).data =
          "/hcmRestApi/resources/".data ++ v.data ++ "/".data ++ b.data := rfl
      have h2 : "/hcmRestApi/resources/".data = "/hcmRestApi".data ++ litResources := by
        decide
      have h3 : "/".data = ['/'] := by decide
      rw [h1, h2, h3]
      simp
    rw [hd, subAll_version_path v.data b.data hv hvs hb]
    have hout : ("/hcmRestApi/resources/" ++ HCM_API_DEFAULT_VERSION ++ "/" ++ b).data =
        "/hcmRestApi".data ++ (replResources ++ b.data) := by
      have h1 : ("/hcmRestApi/resources/" ++ HCM_API_DEFAULT_VERSION ++ "/" ++ b).data =
          ("/hcmRestApi/resources/" ++ HCM_API_DEFAULT_VERSION ++ "/").data ++ b.data := rfl
      have h2 : ("/hcmRestApi/resources/" ++ HCM_API_DEFAULT_VERSION ++ "/").data =
          "/hcmRestApi".data ++ replResources := by decide
      rw [h1, h2]
      simp
    show String.mk ("/hcmRestApi".data ++ (replResources ++ b.data)) = _
    rw [← hout]
  rw [constrainCall_path, hfv]

/-- Witness for the amended C2: the `latest` sentinel in interior position is
rewritten to 11.13.18.05. -/
theorem claim_C2_witness :
    w2call.path = "/hcmRestApi/resources/" ++ "latest" ++ "/" ++ "userAccounts" ∧
    (constrainCall w2call).path =
      "/hcmRestApi/resources/" ++ HCM_API_DEFAULT_VERSION ++ "/" ++ "userAccounts" :=
  ⟨by decide,
    (claim_C2_amended w2plan w2call (by simp [w2plan]) "latest" "userAccounts"
      (by decide) (by decide) (by decide) (by decide)).2⟩
